import Mathlib

/-
  Shallow embedding of the neptune-common proportional pool-share accounting
  engine (src/pool.rs), its time-weighted accumulation extension
  (src/accumulated_pool.rs) and the keyed accounting containers
  (src/map.rs, src/neptune_map.rs).

  Machine integers: cosmwasm Uint256 values are embedded as Nat together with
  explicit checks against 2^256 wherever the Rust arithmetic checks overflow.
  The panicking cosmwasm operators (Add, Sub, Mul, multiply_ratio,
  Decimal256::from_ratio, ...) trap on overflow, underflow and zero
  denominators; a trap is embedded as Option.none (for pool.rs, whose
  functions have no typed error channel) or as Outcome.trap (for
  accumulated_pool.rs, whose accumulate function also has a typed error
  channel, embedded as Outcome.err).

  Decimal256 values are embedded by their atomics (value * 10^18), which is
  exactly the cosmwasm representation.
-/

namespace NeptuneCommon

/-- Number of values representable by cosmwasm Uint256. -/
def U256 : Nat := 2 ^ 256

/-- Fractional scaling factor of cosmwasm Decimal256: atomics = value * 10^18. -/
def DEC_FRAC : Nat := 10 ^ 18

/-- Embedding of the checked (panicking on overflow) addition of Uint256. -/
def checkedAdd (a b : Nat) : Option Nat :=
  if a + b < U256 then some (a + b) else none

/-- Embedding of the checked (panicking on underflow) subtraction of Uint256,
also used for the u64 timestamp subtraction in accumulate (the crate is built
with overflow checks, so an underflow traps). -/
def checkedSub (a b : Nat) : Option Nat :=
  if b ≤ a then some (a - b) else none

/-- Embedding of Uint256::saturating_sub; Nat subtraction is saturating. -/
def saturatingSub (a b : Nat) : Nat := a - b

/-- Embedding of the checked (panicking on overflow) multiplication of Uint256. -/
def checkedMul (a b : Nat) : Option Nat :=
  if a * b < U256 then some (a * b) else none

/-- Embedding of Uint256::checked_multiply_ratio x num den: the product
x * num is formed in 512 bits (exact for inputs below 2^256), divided by den
with floor rounding, and the quotient must fit back into Uint256. Errors on a
zero denominator and on quotient overflow. The panicking multiply_ratio has
the same domain: a panic is embedded as none. -/
def checkedMulRatio (x num den : Nat) : Option Nat :=
  if den = 0 then none
  else if x * num / den < U256 then some (x * num / den) else none

/-- Embedding of cosmwasm Decimal256::from_ratio num den (atomics view):
atomics = num * 10^18 / den; panics on a zero denominator and on overflow. -/
def decimalFromRatio (num den : Nat) : Option Nat :=
  checkedMulRatio num DEC_FRAC den

/-- Embedding of Uint256 * Decimal256 (floor): u * atomics / 10^18, panicking
on overflow of the resulting Uint256. -/
def mulUintDecimal (u atomics : Nat) : Option Nat :=
  if u * atomics / DEC_FRAC < U256 then some (u * atomics / DEC_FRAC) else none

/-- Pool state from src/pool.rs lines 7..12. -/
structure Pool where
  balance : Nat
  shares : Nat
deriving DecidableEq, Repr

/-- PoolAccount state from src/pool.rs lines 225..230. -/
structure PoolAccount where
  principal : Nat
  shares : Nat
deriving DecidableEq, Repr

/-- Embedding of add_amount (src/pool.rs lines 97..125). Returns the updated
pool, the updated account and the shares_added field of AddAmountResponse;
none embeds an arithmetic panic. -/
def add_amount (pool : Pool) (amount : Nat) (account : PoolAccount) :
    Option (Pool × PoolAccount × Nat) := do
  let balance_to_issue := amount
  let shares_to_issue ←
    if pool.balance = 0 then some amount
    else checkedMulRatio amount pool.shares pool.balance
  let accountShares ← checkedAdd account.shares shares_to_issue
  let accountPrincipal ← checkedAdd account.principal balance_to_issue
  let poolShares ← checkedAdd pool.shares shares_to_issue
  let poolBalance ← checkedAdd pool.balance balance_to_issue
  pure (⟨poolBalance, poolShares⟩, ⟨accountPrincipal, accountShares⟩, shares_to_issue)

/-- Embedding of add_shares (src/pool.rs lines 71..94). Returns the updated
pool, the updated account and the balance_added field of AddSharesResponse.
The balance is derived with the panicking multiply_ratio, so a pool with zero
total shares traps (none). -/
def add_shares (pool : Pool) (shares : Nat) (account : PoolAccount) :
    Option (Pool × PoolAccount × Nat) := do
  let shares_to_issue := shares
  let balance_to_issue ← checkedMulRatio shares_to_issue pool.balance pool.shares
  let accountShares ← checkedAdd account.shares shares_to_issue
  let accountPrincipal ← checkedAdd account.principal balance_to_issue
  let poolShares ← checkedAdd pool.shares shares_to_issue
  let poolBalance ← checkedAdd pool.balance balance_to_issue
  pure (⟨poolBalance, poolShares⟩, ⟨accountPrincipal, accountShares⟩, balance_to_issue)

/-- Embedding of remove_shares (src/pool.rs lines 128..156). Returns the
updated pool, the updated account and the balance_removed field of
RemoveSharesResponse. The amount is derived with the panicking
multiply_ratio; there is no zero-shares guard in the source, so a pool with
zero total shares traps (none). -/
def remove_shares (pool : Pool) (shares : Nat) (account : PoolAccount) :
    Option (Pool × PoolAccount × Nat) := do
  let shares_to_remove := if shares > account.shares then account.shares else shares
  let amount_to_remove ← checkedMulRatio shares_to_remove pool.balance pool.shares
  let accountShares ← checkedSub account.shares shares_to_remove
  let accountPrincipal := saturatingSub account.principal amount_to_remove
  let poolShares ← checkedSub pool.shares shares_to_remove
  let poolBalance ← checkedSub pool.balance amount_to_remove
  pure (⟨poolBalance, poolShares⟩, ⟨accountPrincipal, accountShares⟩, amount_to_remove)

/-- Embedding of remove_amount (src/pool.rs lines 159..198). Returns the
updated pool, the updated account and the (amount_removed, shares_removed)
fields of RemoveAmountResponse. -/
def remove_amount (pool : Pool) (amount : Nat) (account : PoolAccount) :
    Option (Pool × PoolAccount × (Nat × Nat)) :=
  if pool.balance = 0 ∨ pool.shares = 0 ∨ account.shares = 0 then
    some (pool, account, (0, 0))
  else do
    let account_amount ← checkedMulRatio account.shares pool.balance pool.shares
    let chosen ←
      if amount > account_amount then
        some (account_amount, account.shares)
      else do
        let str ← checkedMulRatio account.shares amount account_amount
        some (amount, str)
    let amount_to_remove := chosen.1
    let shares_to_remove := chosen.2
    let accountShares ← checkedSub account.shares shares_to_remove
    let accountPrincipal := saturatingSub account.principal amount_to_remove
    let poolShares ← checkedSub pool.shares shares_to_remove
    let poolBalance ← checkedSub pool.balance amount_to_remove
    pure (⟨poolBalance, poolShares⟩, ⟨accountPrincipal, accountShares⟩,
      (amount_to_remove, shares_to_remove))

/-- Embedding of increase_balance (src/pool.rs lines 201..205). -/
def increase_balance (pool : Pool) (amount : Nat) : Option Pool := do
  let poolBalance ← checkedAdd pool.balance amount
  pure ⟨poolBalance, pool.shares⟩

/-- Embedding of get_account_balance (src/pool.rs lines 215..223):
checked_multiply_ratio with unwrap_or_default, so both a zero denominator and
a quotient overflow silently yield zero. -/
def get_account_balance (pool : Pool) (account : PoolAccount) : Nat :=
  (checkedMulRatio account.shares pool.balance pool.shares).getD 0

/-- Result of a fallible Rust computation that distinguishes the typed error
channel (NeptuneResult propagation via the question-mark operator) from a
panic (trap). -/
inductive Outcome (α : Type) where
  | ok : α → Outcome α
  | err : Outcome α
  | trap : Outcome α
deriving DecidableEq, Repr

/-- Sequencing of fallible Rust computations: errors and traps propagate. -/
def Outcome.bind : Outcome α → (α → Outcome β) → Outcome β
  | .ok a, f => f a
  | .err, _ => .err
  | .trap, _ => .trap

instance : Monad Outcome where
  pure := .ok
  bind := .bind

/-- Lifts a panicking arithmetic step (embedded as Option) into Outcome. -/
def liftPanic : Option α → Outcome α
  | some a => .ok a
  | none => .trap

/-- AccumulatedPoolAccount state from src/accumulated_pool.rs lines 17..22;
timestamps are kept as their nanosecond u64 value. -/
structure AccumulatedPoolAccount where
  pool_account : PoolAccount
  accumulator : Nat
  last_accumulation : Option Nat
deriving DecidableEq, Repr

/-- The persistent time-series of an AccumulatedPool, a cw-storage-plus
Map from u64 nanosecond timestamps to Decimal256 atomics, embedded as an
association list kept in ascending key order (the storage iterates u64 keys
in ascending big-endian order). -/
abbrev Series := List (Nat × Nat)

/-- Embedding of Map::save on the time-series: insert in ascending key order,
replacing the value when the key is already present. -/
def seriesSave : Series → Nat → Nat → Series
  | [], k, v => [(k, v)]
  | (k', v') :: rest, k, v =>
    if k < k' then (k, v) :: (k', v') :: rest
    else if k = k' then (k, v) :: rest
    else (k', v') :: seriesSave rest k v

/-- Embedding of Map::load on the time-series: exact point lookup. -/
def seriesLoad (st : Series) (k : Nat) : Option Nat :=
  match st with
  | [] => none
  | (k', v') :: rest => if k = k' then some v' else seriesLoad rest k

/-- Embedding of Map::last on the time-series: the entry with the greatest
key, which for an ascending list is the last entry. -/
def seriesLast (st : Series) : Option (Nat × Nat) := st.getLast?

/-- Embedding of the global checkpoint part of AccumulatedPool::accumulate
(src/accumulated_pool.rs lines 33..56): reads the latest checkpoint, and when
time has advanced appends a new checkpoint whose value grows by
balance * duration / shares. Returns the updated series and the current
accumulation value (atomics). Arithmetic panics (u64 timestamp underflow,
Uint256 mul overflow, Decimal256 from_ratio with a zero-share pool,
Decimal256 add overflow) are traps. -/
def accumulateSeries (pool : Pool) (time : Nat) (st : Series) :
    Outcome (Series × Nat) :=
  match seriesLast st with
  | some last => do
    let duration ← liftPanic (checkedSub time last.1)
    if duration = 0 then
      pure (st, last.2)
    else do
      let scaled ← liftPanic (checkedMul pool.balance duration)
      let new_accumulation ← liftPanic (decimalFromRatio scaled pool.shares)
      let accumulation ← liftPanic (checkedAdd last.2 new_accumulation)
      pure (seriesSave st time accumulation, accumulation)
  | none => pure (seriesSave st time 0, 0)

/-- Embedding of AccumulatedPool::accumulate (src/accumulated_pool.rs lines
27..68): advances the global checkpoint series, then settles the account.
When the account has a prior last_accumulation timestamp, the checkpoint
recorded at exactly that timestamp is loaded (a miss is the typed error
Outcome.err, matching the question-mark propagation of the storage load) and
the account accumulator grows by shares * (accumulation - past value), where
the multiplication is the flooring Uint256 * Decimal256. In every successful
case last_accumulation is set to the current time. -/
def accumulate (pool : Pool) (time : Nat) (st : Series)
    (account : AccumulatedPoolAccount) :
    Outcome (Series × AccumulatedPoolAccount) := do
  let res ← accumulateSeries pool time st
  let st' := res.1
  let accumulation := res.2
  match account.last_accumulation with
  | some last => do
    let last_accumulation ←
      match seriesLoad st' last with
      | some v => Outcome.ok v
      | none => Outcome.err
    let diff ← liftPanic (checkedSub accumulation last_accumulation)
    let account_accumulation_since ←
      liftPanic (mulUintDecimal account.pool_account.shares diff)
    let newAccumulator ← liftPanic (checkedAdd account.accumulator account_accumulation_since)
    pure (st', { account with
      accumulator := newAccumulator,
      last_accumulation := some time })
  | none => pure (st', { account with last_accumulation := some time })

/-- Embedding of the key lookup shared by Map::get / may_get and
NeptuneMap::get / must_get: the value of the first entry whose key equals the
query key, none when no entry matches. -/
def lookupKey [DecidableEq K] (l : List (K × V)) (k : K) : Option V :=
  match l with
  | [] => none
  | (k', v) :: rest => if k' = k then some v else lookupKey rest k

/-- Key membership, the embedding of Map::contains / NeptuneMap::contains_key. -/
def containsKey [DecidableEq K] (l : List (K × V)) (k : K) : Bool :=
  (lookupKey l k).isSome

/-- One iteration of the Add / Sub loops of src/map.rs lines 254..318 and
src/neptune_map.rs lines 182..229: get_mut_or_default finds the first entry
with the given key (appending (key, default) when absent) and the found value
v is replaced by op v rhsVal, so an absent key ends as (key, op default
rhsVal) appended at the end. -/
def combineStep [DecidableEq K] (dflt : V) (op : V → V → V)
    (l : List (K × V)) (k : K) (v : V) : List (K × V) :=
  match l with
  | [] => [(k, op dflt v)]
  | (k', v') :: rest =>
    if k' = k then (k', op v' v) :: rest
    else (k', v') :: combineStep dflt op rest k v

/-- Embedding of the Add and Sub trait impls on Map and NeptuneMap: the rhs
entries are folded in order through combineStep into self. Add instantiates
op with addition and dflt with the Default value; Sub instantiates op with
subtraction; both container variants run the identical loop. -/
def combineAll [DecidableEq K] (dflt : V) (op : V → V → V)
    (l r : List (K × V)) : List (K × V) :=
  r.foldl (fun acc kv => combineStep dflt op acc kv.1 kv.2) l

/-- Embedding of Map::mul_all (src/map.rs lines 147..158) and
NeptuneMap::mul_all (src/neptune_map.rs lines 89..100): for each entry of
self in order, the rhs value at the same key is required (a missing key is a
KeyNotFound error, embedded as none, short-circuiting at the first miss) and
the pointwise products are collected in the order of self. -/
def mul_all [DecidableEq K] (op : V → U → W)
    (l : List (K × V)) (r : List (K × U)) : Option (List (K × W)) :=
  match l with
  | [] => some []
  | (k, v) :: rest => do
    let u ← lookupKey r k
    let tail ← mul_all op rest r
    pure ((k, op v u) :: tail)

/-- Global state for the multi-account pool system: the shared pool together
with one PoolAccount per account index. -/
structure SysState (n : Nat) where
  pool : Pool
  accounts : Fin n → PoolAccount

/-- The mutating pool operations of src/pool.rs, each naming the account it
acts on. -/
inductive PoolOp (n : Nat) where
  | addAmount (i : Fin n) (amount : Nat)
  | addShares (i : Fin n) (shares : Nat)
  | removeAmount (i : Fin n) (amount : Nat)
  | removeShares (i : Fin n) (shares : Nat)
  | increaseBalance (amount : Nat)

/-- Applies one pool operation to the system state; none embeds a panic of
the underlying operation. -/
def applyOp : PoolOp n → SysState n → Option (SysState n)
  | .addAmount i amount, s =>
    (add_amount s.pool amount (s.accounts i)).map fun r =>
      ⟨r.1, Function.update s.accounts i r.2.1⟩
  | .addShares i shares, s =>
    (add_shares s.pool shares (s.accounts i)).map fun r =>
      ⟨r.1, Function.update s.accounts i r.2.1⟩
  | .removeAmount i amount, s =>
    (remove_amount s.pool amount (s.accounts i)).map fun r =>
      ⟨r.1, Function.update s.accounts i r.2.1⟩
  | .removeShares i shares, s =>
    (remove_shares s.pool shares (s.accounts i)).map fun r =>
      ⟨r.1, Function.update s.accounts i r.2.1⟩
  | .increaseBalance amount, s =>
    (increase_balance s.pool amount).map fun p => ⟨p, s.accounts⟩

/-- The zero-valued initial state: Pool::default and PoolAccount::default
everywhere. -/
def initState (n : Nat) : SysState n := ⟨⟨0, 0⟩, fun _ => ⟨0, 0⟩⟩

/-- One successful transition of the pool system. -/
def PoolStep (s s' : SysState n) : Prop :=
  ∃ op : PoolOp n, applyOp op s = some s'

/-- States reachable by finitely many successful pool operations. -/
def ReachableFrom (s s' : SysState n) : Prop :=
  Relation.ReflTransGen PoolStep s s'

/-- State of a pool with a single account, for the single-account round-trip
property. -/
structure SingleState where
  pool : Pool
  account : PoolAccount
deriving DecidableEq, Repr

/-- The operations the round-trip property ranges over: add_amount and
remove_amount on the one account, with increase_balance interleaved. -/
inductive SingleOp where
  | addAmount (amount : Nat)
  | removeAmount (amount : Nat)
  | increaseBalance (amount : Nat)

/-- Applies one single-account operation; none embeds a panic. -/
def applySingle : SingleOp → SingleState → Option SingleState
  | .addAmount amount, s =>
    (add_amount s.pool amount s.account).map fun r => ⟨r.1, r.2.1⟩
  | .removeAmount amount, s =>
    (remove_amount s.pool amount s.account).map fun r => ⟨r.1, r.2.1⟩
  | .increaseBalance amount, s =>
    (increase_balance s.pool amount).map fun p => ⟨p, s.account⟩

/-- The zero-valued single-account initial state. -/
def initSingle : SingleState := ⟨⟨0, 0⟩, ⟨0, 0⟩⟩

/-- One successful single-account transition. -/
def SingleStep (s s' : SingleState) : Prop :=
  ∃ op : SingleOp, applySingle op s = some s'

/-- Single-account states reachable from the zero-valued state. -/
def SingleReachable (s : SingleState) : Prop :=
  Relation.ReflTransGen SingleStep initSingle s

/-- Invariant of single-account states: the one account owns all pool shares,
a drained pool has no shares, and both pool fields fit in Uint256. -/
def SingleInv (s : SingleState) : Prop :=
  s.account.shares = s.pool.shares ∧ (s.pool.balance = 0 → s.pool.shares = 0) ∧
  s.pool.balance < U256 ∧ s.pool.shares < U256

/-- Well-formedness of the checkpoint series: timestamps strictly increase
along the list and accumulation values never decrease. -/
def SeriesWF (st : Series) : Prop :=
  st.Chain' (fun p q => p.1 < q.1 ∧ p.2 ≤ q.2)

/-- One successful accumulate call, viewed as a transition on the stored
checkpoint series (the pool state, timestamp and account are arbitrary). -/
def AccumStep (st st' : Series) : Prop :=
  ∃ (pool : Pool) (time : Nat) (account account' : AccumulatedPoolAccount),
    accumulate pool time st account = .ok (st', account')

/-- Series reachable from empty storage by finitely many successful
accumulate calls. -/
def AccumReachable (st : Series) : Prop :=
  Relation.ReflTransGen AccumStep [] st

/-- Inversion of a successful checked addition. -/
theorem checkedAdd_some {a b c : Nat} (h : checkedAdd a b = some c) :
    c = a + b ∧ a + b < U256 := by
  unfold checkedAdd at h
  split at h <;> simp_all

/-- Inversion of a successful checked subtraction. -/
theorem checkedSub_some {a b c : Nat} (h : checkedSub a b = some c) :
    b ≤ a ∧ c = a - b := by
  unfold checkedSub at h
  split at h <;> simp_all

/-- Inversion of a successful checked multiplication. -/
theorem checkedMul_some {a b c : Nat} (h : checkedMul a b = some c) :
    c = a * b ∧ a * b < U256 := by
  unfold checkedMul at h
  split at h <;> simp_all

/-- Inversion of a successful checked_multiply_ratio. -/
theorem checkedMulRatio_some {x n d q : Nat} (h : checkedMulRatio x n d = some q) :
    d ≠ 0 ∧ q = x * n / d ∧ x * n / d < U256 := by
  unfold checkedMulRatio at h
  split at h
  · exact absurd h (by simp)
  · split at h <;> simp_all

/-- Characterization of a successful add_amount: the issued shares follow the
bootstrap / proportional formula and all four state fields are incremented. -/
theorem add_amount_some {pool : Pool} {amount : Nat} {account : PoolAccount}
    {p' : Pool} {a' : PoolAccount} {sh : Nat}
    (h : add_amount pool amount account = some (p', a', sh)) :
    sh = (if pool.balance = 0 then amount else amount * pool.shares / pool.balance) ∧
    p'.balance = pool.balance + amount ∧ p'.shares = pool.shares + sh ∧
    a'.principal = account.principal + amount ∧ a'.shares = account.shares + sh ∧
    p'.balance < U256 ∧ p'.shares < U256 := by
  by_cases hb : pool.balance = 0 <;>
  · simp only [add_amount, hb, if_true, if_false, Option.bind_eq_bind',
      Option.bind_eq_some, Option.pure_def, Option.some.injEq, Prod.mk.injEq] at h
    obtain ⟨sti, hsti, as, has, ap, hap, ps, hps, pb, hpb, hp, ha, rfl⟩ := h
    obtain ⟨rfl, -⟩ := checkedAdd_some has
    obtain ⟨rfl, -⟩ := checkedAdd_some hap
    obtain ⟨rfl, hlt1⟩ := checkedAdd_some hps
    obtain ⟨rfl, hlt2⟩ := checkedAdd_some hpb
    subst hp
    subst ha
    refine ⟨?_, by simp [hb], by simp, by simp, by simp, by simpa using hlt2,
      by simpa using hlt1⟩
    first
    | simpa [hb] using hsti.symm
    | (obtain ⟨-, rfl, -⟩ := checkedMulRatio_some hsti
       simp [hb])

/-- Characterization of a successful add_shares: requires nonzero pool
shares, derives the balance proportionally and increments all four fields. -/
theorem add_shares_some {pool : Pool} {shares : Nat} {account : PoolAccount}
    {p' : Pool} {a' : PoolAccount} {bal : Nat}
    (h : add_shares pool shares account = some (p', a', bal)) :
    pool.shares ≠ 0 ∧ bal = shares * pool.balance / pool.shares ∧
    p'.balance = pool.balance + bal ∧ p'.shares = pool.shares + shares ∧
    a'.principal = account.principal + bal ∧ a'.shares = account.shares + shares ∧
    p'.balance < U256 ∧ p'.shares < U256 := by
  simp only [add_shares, Option.bind_eq_bind', Option.bind_eq_some, Option.pure_def,
    Option.some.injEq, Prod.mk.injEq] at h
  obtain ⟨bti, hbti, as, has, ap, hap, ps, hps, pb, hpb, hp, ha, rfl⟩ := h
  obtain ⟨hd, rfl, -⟩ := checkedMulRatio_some hbti
  obtain ⟨rfl, -⟩ := checkedAdd_some has
  obtain ⟨rfl, -⟩ := checkedAdd_some hap
  obtain ⟨rfl, hlt1⟩ := checkedAdd_some hps
  obtain ⟨rfl, hlt2⟩ := checkedAdd_some hpb
  subst hp
  subst ha
  simp [hd, hlt1, hlt2]

/-- Characterization of a successful remove_shares: requires nonzero pool
shares (the multiply_ratio there panics otherwise), clamps to the account
shares and decrements symmetrically, with saturating principal. -/
theorem remove_shares_some {pool : Pool} {shares : Nat} {account : PoolAccount}
    {p' : Pool} {a' : PoolAccount} {bal : Nat}
    (h : remove_shares pool shares account = some (p', a', bal)) :
    pool.shares ≠ 0 ∧
    ((if shares > account.shares then account.shares else shares) ≤ pool.shares ∧
     bal = (if shares > account.shares then account.shares else shares) *
       pool.balance / pool.shares ∧
     bal ≤ pool.balance ∧
     p' = ⟨pool.balance - bal,
       pool.shares - (if shares > account.shares then account.shares else shares)⟩ ∧
     a' = ⟨account.principal - bal,
       account.shares - (if shares > account.shares then account.shares else shares)⟩) := by
  simp only [remove_shares, Option.bind_eq_bind', Option.bind_eq_some, Option.pure_def,
    Option.some.injEq, Prod.mk.injEq] at h
  obtain ⟨atr, hatr, as, has, ps, hps, pb, hpb, hp, ha, rfl⟩ := h
  obtain ⟨hd, rfl, -⟩ := checkedMulRatio_some hatr
  obtain ⟨hle1, rfl⟩ := checkedSub_some has
  obtain ⟨hle2, rfl⟩ := checkedSub_some hps
  obtain ⟨hle3, rfl⟩ := checkedSub_some hpb
  subst hp
  subst ha
  simp_all [saturatingSub]

/-- Characterization of a successful increase_balance. -/
theorem increase_balance_some {pool : Pool} {amount : Nat} {p' : Pool}
    (h : increase_balance pool amount = some p') :
    p'.balance = pool.balance + amount ∧ p'.shares = pool.shares ∧
    p'.balance < U256 := by
  simp only [increase_balance, Option.bind_eq_bind', Option.bind_eq_some,
    Option.pure_def, Option.some.injEq] at h
  obtain ⟨pb, hpb, hp⟩ := h
  obtain ⟨rfl, hlt⟩ := checkedAdd_some hpb
  subst hp
  simp [hlt]

/-- Characterization of a successful remove_amount: either the zero-state
short circuit, or the clamped / proportional withdrawal with symmetric
decrements and saturating principal. -/
theorem remove_amount_some {pool : Pool} {amount : Nat} {account : PoolAccount}
    {p' : Pool} {a' : PoolAccount} {ar sr : Nat}
    (h : remove_amount pool amount account = some (p', a', (ar, sr))) :
    ((pool.balance = 0 ∨ pool.shares = 0 ∨ account.shares = 0) ∧
      p' = pool ∧ a' = account ∧ ar = 0 ∧ sr = 0) ∨
    (pool.balance ≠ 0 ∧ pool.shares ≠ 0 ∧ account.shares ≠ 0 ∧
      ((amount > account.shares * pool.balance / pool.shares ∧
        ar = account.shares * pool.balance / pool.shares ∧ sr = account.shares) ∨
       (amount ≤ account.shares * pool.balance / pool.shares ∧
        account.shares * pool.balance / pool.shares ≠ 0 ∧
        ar = amount ∧
        sr = account.shares * amount / (account.shares * pool.balance / pool.shares))) ∧
      sr ≤ account.shares ∧ sr ≤ pool.shares ∧ ar ≤ pool.balance ∧
      p' = ⟨pool.balance - ar, pool.shares - sr⟩ ∧
      a' = ⟨account.principal - ar, account.shares - sr⟩) := by
  unfold remove_amount at h
  split at h
  · rename_i hzero
    left
    simp only [Option.some.injEq, Prod.mk.injEq] at h
    obtain ⟨rfl, rfl, rfl, rfl⟩ := h
    exact ⟨hzero, rfl, rfl, rfl, rfl⟩
  · rename_i hzero
    push_neg at hzero
    obtain ⟨hb, hs, hacs⟩ := hzero
    right
    cases hab : checkedMulRatio account.shares pool.balance pool.shares with
    | none =>
      rw [hab] at h
      simp at h
    | some ab =>
      rw [hab] at h
      simp only [Option.bind_eq_bind', Option.some_bind] at h
      obtain ⟨-, habq, -⟩ := checkedMulRatio_some hab
      subst habq
      split at h
      · rename_i hgt
        simp only [Option.bind_eq_bind', Option.some_bind, Option.bind_eq_some,
          Option.pure_def, Option.some.injEq, Prod.mk.injEq] at h
        obtain ⟨as, has, ps, hps, pb, hpb, hp, ha, har, hsr⟩ := h
        obtain ⟨hle1, rfl⟩ := checkedSub_some has
        obtain ⟨hle2, rfl⟩ := checkedSub_some hps
        obtain ⟨hle3, rfl⟩ := checkedSub_some hpb
        subst hp
        subst ha
        subst har
        subst hsr
        exact ⟨hb, hs, hacs, Or.inl ⟨hgt, rfl, rfl⟩, hle1, hle2, hle3,
          by simp [saturatingSub], by simp [saturatingSub]⟩
      · rename_i hgt
        push_neg at hgt
        simp only [Option.bind_eq_bind', Option.some_bind, Option.bind_eq_some,
          Option.pure_def, Option.some.injEq, Prod.mk.injEq] at h
        obtain ⟨str, hstr, as, has, ps, hps, pb, hpb, hp, ha, har, hsr⟩ := h
        obtain ⟨habne, rfl, -⟩ := checkedMulRatio_some hstr
        obtain ⟨hle1, rfl⟩ := checkedSub_some has
        obtain ⟨hle2, rfl⟩ := checkedSub_some hps
        obtain ⟨hle3, rfl⟩ := checkedSub_some hpb
        subst hp
        subst ha
        subst har
        subst hsr
        exact ⟨hb, hs, hacs, Or.inr ⟨hgt, habne, rfl, rfl⟩, hle1, hle2, hle3,
          by simp [saturatingSub], by simp [saturatingSub]⟩

/-- Summing the shares of an updated account family isolates the updated
account. -/
theorem sum_shares_update {n : Nat} (acc : Fin n → PoolAccount) (i : Fin n)
    (a' : PoolAccount) :
    ∑ j, ((Function.update acc i a') j).shares
      = a'.shares + ∑ j in Finset.univ.erase i, (acc j).shares := by
  have hpt : ∀ j, ((Function.update acc i a') j).shares
      = Function.update (fun k => (acc k).shares) i a'.shares j := by
    intro j
    by_cases hj : j = i
    · subst hj
      simp
    · simp [Function.update_noteq hj]
  rw [Finset.sum_congr rfl fun j _ => hpt j, Finset.erase_eq,
    Finset.sum_update_of_mem (Finset.mem_univ i)]

/-- Summing the shares of an account family isolates any single account. -/
theorem sum_shares_split {n : Nat} (acc : Fin n → PoolAccount) (i : Fin n) :
    ∑ j, (acc j).shares
      = (acc i).shares + ∑ j in Finset.univ.erase i, (acc j).shares :=
  (Finset.add_sum_erase _ _ (Finset.mem_univ i)).symm

/-- The total account shares never exceed the pool shares: this quantity is
preserved by every successful pool operation. -/
theorem shares_sum_step {n : Nat} {s s' : SysState n} (hstep : PoolStep s s')
    (hinv : (∑ i, (s.accounts i).shares) ≤ s.pool.shares) :
    (∑ i, (s'.accounts i).shares) ≤ s'.pool.shares := by
  obtain ⟨op, hop⟩ := hstep
  cases op with
  | addAmount i amount =>
    simp only [applyOp, Option.map_eq_some'] at hop
    obtain ⟨⟨p', a', sh⟩, hsome, rfl⟩ := hop
    obtain ⟨-, -, hps, -, has, -, -⟩ := add_amount_some hsome
    simp only [sum_shares_update, hps, has]
    rw [sum_shares_split s.accounts i] at hinv
    omega
  | addShares i shares =>
    simp only [applyOp, Option.map_eq_some'] at hop
    obtain ⟨⟨p', a', bal⟩, hsome, rfl⟩ := hop
    obtain ⟨-, -, -, hps, -, has, -, -⟩ := add_shares_some hsome
    simp only [sum_shares_update, hps, has]
    rw [sum_shares_split s.accounts i] at hinv
    omega
  | removeAmount i amount =>
    simp only [applyOp, Option.map_eq_some'] at hop
    obtain ⟨⟨p', a', ar, sr⟩, hsome, rfl⟩ := hop
    rcases remove_amount_some hsome with ⟨-, rfl, rfl, -, -⟩ |
      ⟨-, -, -, -, hsr1, hsr2, -, rfl, rfl⟩
    · simp only [sum_shares_update]
      rw [sum_shares_split s.accounts i] at hinv
      omega
    · simp only [sum_shares_update]
      rw [sum_shares_split s.accounts i] at hinv
      omega
  | removeShares i shares =>
    simp only [applyOp, Option.map_eq_some'] at hop
    obtain ⟨⟨p', a', bal⟩, hsome, rfl⟩ := hop
    obtain ⟨-, hstr, -, -, rfl, rfl⟩ := remove_shares_some hsome
    simp only [sum_shares_update]
    rw [sum_shares_split s.accounts i] at hinv
    have hstr2 : (if shares > (s.accounts i).shares then (s.accounts i).shares else shares)
        ≤ (s.accounts i).shares := by
      split <;> omega
    omega
  | increaseBalance amount =>
    simp only [applyOp, Option.map_eq_some'] at hop
    obtain ⟨p', hsome, rfl⟩ := hop
    obtain ⟨-, hps, -⟩ := increase_balance_some hsome
    simpa [hps] using hinv

/-- In every reachable state the total account shares are bounded by the pool
shares. -/
theorem shares_sum_le_of_reachable {n : Nat} {s : SysState n}
    (h : ReachableFrom (initState n) s) :
    (∑ i, (s.accounts i).shares) ≤ s.pool.shares := by
  induction h with
  | refl => simp [initState]
  | tail hr hstep ih => exact shares_sum_step hstep ih

/-- A sum of flooring Nat divisions is bounded by the division of the sum. -/
theorem sum_div_le {ι : Type _} (s : Finset ι) (f : ι → Nat) (c : Nat) :
    ∑ i in s, f i / c ≤ (∑ i in s, f i) / c := by
  rcases Nat.eq_zero_or_pos c with hc | hc
  · subst hc
    simp
  · rw [Nat.le_div_iff_mul_le hc, Finset.sum_mul]
    exact Finset.sum_le_sum fun i _ => Nat.div_mul_le_self _ _

/-- When the total account shares are bounded by the pool shares, the summed
account balances are bounded by the pool balance. -/
theorem sum_gab_le {n : Nat} (pool : Pool) (acc : Fin n → PoolAccount)
    (hinv : (∑ i, (acc i).shares) ≤ pool.shares) :
    (∑ i, get_account_balance pool (acc i)) ≤ pool.balance := by
  rcases Nat.eq_zero_or_pos pool.shares with hs | hs
  · have hz : ∀ i, get_account_balance pool (acc i) = 0 := by
      intro i
      simp [get_account_balance, checkedMulRatio, hs]
    simp [hz]
  · have h1 : ∀ i, get_account_balance pool (acc i)
        ≤ (acc i).shares * pool.balance / pool.shares := by
      intro i
      unfold get_account_balance checkedMulRatio
      split
      · simp
      · split <;> simp
    calc ∑ i, get_account_balance pool (acc i)
        ≤ ∑ i, (acc i).shares * pool.balance / pool.shares :=
          Finset.sum_le_sum fun i _ => h1 i
      _ ≤ (∑ i, (acc i).shares * pool.balance) / pool.shares :=
          sum_div_le _ _ _
      _ = ((∑ i, (acc i).shares) * pool.balance) / pool.shares := by
          rw [Finset.sum_mul]
      _ ≤ (pool.shares * pool.balance) / pool.shares :=
          Nat.div_le_div_right (Nat.mul_le_mul_right _ hinv)
      _ = pool.balance := Nat.mul_div_cancel_left _ hs

/-- C1: for every pool state reachable from the zero-valued Pool by any
finite sequence of add_amount, add_shares, remove_amount, remove_shares and
increase_balance calls over any set of accounts, the sum over all those
accounts of get_account_balance is at most the pool balance. -/
theorem reachable_sum_balances_le_pool_balance {n : Nat} (s : SysState n)
    (h : ReachableFrom (initState n) s) :
    (∑ i, get_account_balance s.pool (s.accounts i)) ≤ s.pool.balance :=
  sum_gab_le _ _ (shares_sum_le_of_reachable h)

/-- Witness for C1 at a concrete two-step reachable state: one deposit of 100
followed by a yield injection of 50. -/
theorem reachable_sum_balances_le_pool_balance_witness :
    ReachableFrom (initState 1)
      ⟨⟨150, 100⟩, Function.update (fun _ => ⟨0, 0⟩) 0 ⟨100, 100⟩⟩ ∧
    (∑ i, get_account_balance (⟨150, 100⟩ : Pool)
      ((Function.update (fun _ => (⟨0, 0⟩ : PoolAccount)) (0 : Fin 1) ⟨100, 100⟩) i))
      ≤ (150 : Nat) := by
  have h1 : PoolStep (initState 1)
      ⟨⟨100, 100⟩, Function.update (fun _ => ⟨0, 0⟩) 0 ⟨100, 100⟩⟩ :=
    ⟨PoolOp.addAmount 0 100, rfl⟩
  have h2 : PoolStep
      (⟨⟨100, 100⟩, Function.update (fun _ => ⟨0, 0⟩) 0 ⟨100, 100⟩⟩ : SysState 1)
      ⟨⟨150, 100⟩, Function.update (fun _ => ⟨0, 0⟩) 0 ⟨100, 100⟩⟩ :=
    ⟨PoolOp.increaseBalance 50, rfl⟩
  have hr : ReachableFrom (initState 1)
      ⟨⟨150, 100⟩, Function.update (fun _ => ⟨0, 0⟩) 0 ⟨100, 100⟩⟩ :=
    Relation.ReflTransGen.tail (Relation.ReflTransGen.single h1) h2
  exact ⟨hr, reachable_sum_balances_le_pool_balance _ hr⟩

/-- The single-account invariant is preserved by every successful step. -/
theorem single_inv_step {s s' : SingleState} (hstep : SingleStep s s')
    (h : SingleInv s) : SingleInv s' := by
  obtain ⟨op, hop⟩ := hstep
  obtain ⟨heq, hz, hbb, hsb⟩ := h
  cases op with
  | addAmount amount =>
    simp only [applySingle, Option.map_eq_some'] at hop
    obtain ⟨⟨p', a', sh⟩, hsome, rfl⟩ := hop
    obtain ⟨hsh, hpb, hps, -, has, hlt1, hlt2⟩ := add_amount_some hsome
    unfold SingleInv
    dsimp only
    refine ⟨by omega, ?_, hlt1, hlt2⟩
    intro h0
    have hb0 : s.pool.balance = 0 := by omega
    have hsh0 : sh = amount := by rw [hsh, if_pos hb0]
    have := hz hb0
    omega
  | removeAmount amount =>
    simp only [applySingle, Option.map_eq_some'] at hop
    obtain ⟨⟨p', a', ar, sr⟩, hsome, rfl⟩ := hop
    unfold SingleInv
    dsimp only
    rcases remove_amount_some hsome with ⟨-, rfl, rfl, -, -⟩ |
      ⟨hb, hs, hacs, hbranch, hsr1, hsr2, hsr3, rfl, rfl⟩
    · exact ⟨heq, hz, hbb, hsb⟩
    · have hspos : 0 < s.pool.shares := Nat.pos_of_ne_zero hs
      have hbpos : 0 < s.pool.balance := Nat.pos_of_ne_zero hb
      have hab : s.account.shares * s.pool.balance / s.pool.shares
          = s.pool.balance := by
        rw [heq, Nat.mul_div_cancel_left _ hspos]
      dsimp only
      refine ⟨by omega, ?_, by omega, by omega⟩
      intro h0
      rcases hbranch with ⟨-, har, hsr⟩ | ⟨hle, -, har, hsr⟩
      · rw [hab] at har
        omega
      · rw [hab] at hle hsr
        have harB : ar = s.pool.balance := by omega
        rw [har] at harB
        subst harB
        rw [heq, Nat.mul_div_cancel _ hbpos] at hsr
        omega
  | increaseBalance amount =>
    simp only [applySingle, Option.map_eq_some'] at hop
    obtain ⟨p', hsome, rfl⟩ := hop
    obtain ⟨hpb, hps, hlt⟩ := increase_balance_some hsome
    unfold SingleInv
    dsimp only
    refine ⟨by omega, ?_, hlt, by omega⟩
    intro h0
    have hb0 : s.pool.balance = 0 := by omega
    rw [hps]
    exact hz hb0

/-- Every reachable single-account state satisfies the invariant. -/
theorem single_inv_of_reachable {s : SingleState} (h : SingleReachable s) :
    SingleInv s := by
  induction h with
  | refl =>
    refine ⟨rfl, fun _ => rfl, ?_, ?_⟩ <;> simp [initSingle, U256]
  | tail hr hstep ih => exact single_inv_step hstep ih

/-- Removing exactly the whole pool balance from the account that owns all
shares drains the pool and the account completely. -/
theorem remove_amount_all (pool : Pool) (account : PoolAccount)
    (heq : account.shares = pool.shares) (hs : pool.shares ≠ 0)
    (hb : pool.balance ≠ 0) (hbb : pool.balance < U256) (hsb : pool.shares < U256) :
    remove_amount pool pool.balance account
      = some (⟨0, 0⟩, ⟨account.principal - pool.balance, 0⟩,
          (pool.balance, account.shares)) := by
  have hspos : 0 < pool.shares := Nat.pos_of_ne_zero hs
  have hbpos : 0 < pool.balance := Nat.pos_of_ne_zero hb
  have hacs : account.shares ≠ 0 := by rw [heq]; exact hs
  have hab : checkedMulRatio account.shares pool.balance pool.shares
      = some pool.balance := by
    unfold checkedMulRatio
    rw [if_neg hs, heq, Nat.mul_div_cancel_left _ hspos, if_pos hbb]
  have hstr : checkedMulRatio account.shares pool.balance pool.balance
      = some account.shares := by
    unfold checkedMulRatio
    rw [if_neg hb, Nat.mul_div_cancel _ hbpos, if_pos (heq ▸ hsb)]
  unfold remove_amount
  rw [if_neg (by push_neg; exact ⟨hb, hs, hacs⟩)]
  simp only [Option.bind_eq_bind']
  rw [hab, Option.some_bind]
  rw [if_neg (lt_irrefl pool.balance)]
  rw [hstr]
  simp [checkedSub, saturatingSub, heq]

/-- C2: for any sequence of add_amount and remove_amount calls on a single
account with arbitrary increase_balance calls interleaved, a remove_amount
request equal to the account current get_account_balance leaves the account
with zero shares and an exactly zero get_account_balance. -/
theorem single_remove_exact_balance {s : SingleState} (h : SingleReachable s) :
    ∃ p' a' resp,
      remove_amount s.pool (get_account_balance s.pool s.account) s.account
        = some (p', a', resp) ∧
      a'.shares = 0 ∧ get_account_balance p' a' = 0 := by
  obtain ⟨heq, hz, hbb, hsb⟩ := single_inv_of_reachable h
  rcases Nat.eq_zero_or_pos s.pool.shares with hs | hs
  · have hacs : s.account.shares = 0 := by omega
    refine ⟨s.pool, s.account, (0, 0), ?_, hacs, ?_⟩
    · unfold remove_amount
      rw [if_pos (Or.inr (Or.inl hs))]
    · unfold get_account_balance checkedMulRatio
      rw [if_pos hs]
      rfl
  · have hsne : s.pool.shares ≠ 0 := Nat.pos_iff_ne_zero.mp hs
    have hb : s.pool.balance ≠ 0 := fun h0 => by have := hz h0; omega
    have hg : get_account_balance s.pool s.account = s.pool.balance := by
      unfold get_account_balance checkedMulRatio
      rw [if_neg hsne, heq, Nat.mul_div_cancel_left _ hs, if_pos hbb]
      rfl
    refine ⟨⟨0, 0⟩, ⟨s.account.principal - s.pool.balance, 0⟩,
      (s.pool.balance, s.account.shares), ?_, rfl, ?_⟩
    · rw [hg]
      exact remove_amount_all s.pool s.account heq hsne hb hbb hsb
    · unfold get_account_balance checkedMulRatio
      rfl

/-- Witness for C2 at a concrete reachable state: a deposit of 100 followed
by a yield injection of 50. -/
theorem single_remove_exact_balance_witness :
    SingleReachable ⟨⟨150, 100⟩, ⟨100, 100⟩⟩ ∧
    ∃ p' a' resp,
      remove_amount (⟨150, 100⟩ : Pool)
          (get_account_balance ⟨150, 100⟩ ⟨100, 100⟩) ⟨100, 100⟩
        = some (p', a', resp) ∧
      a'.shares = 0 ∧ get_account_balance p' a' = 0 := by
  have h1 : SingleStep initSingle ⟨⟨100, 100⟩, ⟨100, 100⟩⟩ :=
    ⟨SingleOp.addAmount 100, rfl⟩
  have h2 : SingleStep (⟨⟨100, 100⟩, ⟨100, 100⟩⟩ : SingleState)
      ⟨⟨150, 100⟩, ⟨100, 100⟩⟩ :=
    ⟨SingleOp.increaseBalance 50, rfl⟩
  have hr : SingleReachable ⟨⟨150, 100⟩, ⟨100, 100⟩⟩ :=
    Relation.ReflTransGen.tail (Relation.ReflTransGen.single h1) h2
  exact ⟨hr, single_remove_exact_balance hr⟩

/-- C3: add_amount issues shares equal to amount when the pool balance is
zero (1:1 bootstrap) and otherwise floor(amount * pool.shares /
pool.balance); it increments pool.balance by amount, pool.shares by the
issued shares, account.principal by amount and account.shares by the issued
shares, and returns the issued shares. -/
theorem add_amount_functional_correctness (pool : Pool) (amount : Nat)
    (account : PoolAccount) (p' : Pool) (a' : PoolAccount) (sh : Nat)
    (h : add_amount pool amount account = some (p', a', sh)) :
    sh = (if pool.balance = 0 then amount
      else amount * pool.shares / pool.balance) ∧
    p'.balance = pool.balance + amount ∧ p'.shares = pool.shares + sh ∧
    a'.principal = account.principal + amount ∧ a'.shares = account.shares + sh := by
  obtain ⟨h1, h2, h3, h4, h5, -, -⟩ := add_amount_some h
  exact ⟨h1, h2, h3, h4, h5⟩

/-- Witness for C3 at the bootstrap deposit of the specification scenario. -/
theorem add_amount_functional_correctness_witness :
    add_amount ⟨0, 0⟩ 100 ⟨0, 0⟩ = some (⟨100, 100⟩, ⟨100, 100⟩, 100) ∧
    ((100 : Nat) = (if (Pool.mk 0 0).balance = 0 then 100
        else 100 * (Pool.mk 0 0).shares / (Pool.mk 0 0).balance) ∧
      (Pool.mk 100 100).balance = (Pool.mk 0 0).balance + 100 ∧
      (Pool.mk 100 100).shares = (Pool.mk 0 0).shares + 100 ∧
      (PoolAccount.mk 100 100).principal = (PoolAccount.mk 0 0).principal + 100 ∧
      (PoolAccount.mk 100 100).shares = (PoolAccount.mk 0 0).shares + 100) :=
  ⟨rfl, add_amount_functional_correctness ⟨0, 0⟩ 100 ⟨0, 0⟩ ⟨100, 100⟩ ⟨100, 100⟩ 100 rfl⟩

/-- C4 counterexample: with pool balance 1 and pool shares 2 the account
balance of a one-share account floors to 0, and a remove_amount request of 0
reaches the else branch, whose multiply_ratio divides by the zero account
balance and panics; no pair is returned, contrary to the claim. -/
theorem remove_amount_zero_balance_traps :
    remove_amount ⟨1, 2⟩ 0 ⟨0, 1⟩ = none := by rfl

/-- C4 amended: for nonzero pool shares, pool balance and account shares,
whenever remove_amount returns without panicking it returns the clamped /
proportional pair and decrements pool and account symmetrically, with the
principal decremented by saturating subtraction. -/
theorem remove_amount_functional_correctness (pool : Pool) (amount : Nat)
    (account : PoolAccount) (p' : Pool) (a' : PoolAccount) (ar sr : Nat)
    (hs : pool.shares ≠ 0) (hb : pool.balance ≠ 0) (hacs : account.shares ≠ 0)
    (h : remove_amount pool amount account = some (p', a', (ar, sr))) :
    ((amount > account.shares * pool.balance / pool.shares ∧
      ar = account.shares * pool.balance / pool.shares ∧ sr = account.shares) ∨
     (amount ≤ account.shares * pool.balance / pool.shares ∧
      ar = amount ∧
      sr = account.shares * amount / (account.shares * pool.balance / pool.shares))) ∧
    p' = ⟨pool.balance - ar, pool.shares - sr⟩ ∧
    a' = ⟨account.principal - ar, account.shares - sr⟩ := by
  rcases remove_amount_some h with ⟨hzero, -⟩ | ⟨-, -, -, hbr, -, -, -, hp, ha⟩
  · tauto
  · refine ⟨?_, hp, ha⟩
    rcases hbr with h1 | ⟨h1, -, h2, h3⟩
    · exact Or.inl h1
    · exact Or.inr ⟨h1, h2, h3⟩

/-- Witness for C4 at the withdrawal step of the specification scenario. -/
theorem remove_amount_functional_correctness_witness :
    remove_amount ⟨300, 150⟩ 100 ⟨100, 50⟩
      = some (⟨200, 100⟩, ⟨0, 0⟩, (100, 50)) ∧
    ((((100 : Nat) > 50 * 300 / 150 ∧ (100 : Nat) = 50 * 300 / 150 ∧
        (50 : Nat) = 50) ∨
      ((100 : Nat) ≤ 50 * 300 / 150 ∧ (100 : Nat) = 100 ∧
        (50 : Nat) = 50 * 100 / (50 * 300 / 150))) ∧
     (Pool.mk 200 100) = ⟨300 - 100, 150 - 50⟩ ∧
     (PoolAccount.mk 0 0) = ⟨100 - 100, 50 - 50⟩) :=
  ⟨rfl, remove_amount_functional_correctness ⟨300, 150⟩ 100 ⟨100, 50⟩
    ⟨200, 100⟩ ⟨0, 0⟩ 100 50 (by decide) (by decide) (by decide) rfl⟩

/-- C5: the zero-share withdrawal paths panic instead of short-circuiting:
remove_shares on a pool with zero total shares reaches a divide-by-zero
multiply_ratio even for a zero-share request, and accumulate on a zero-share
pool with elapsed time reaches the zero denominator of
Decimal256::from_ratio; both calls trap on this valid input. -/
theorem zero_share_withdrawal_traps :
    remove_shares ⟨100, 0⟩ 0 ⟨0, 0⟩ = none ∧
    accumulate ⟨100, 0⟩ 10 [(0, 0)] ⟨⟨0, 0⟩, 0, none⟩ = .trap := by
  exact ⟨rfl, rfl⟩

/-- C8 counterexample: get_account_balance silently returns zero when the
proportional balance overflows Uint256 instead of surfacing an error: with
pool balance 2, pool shares 1 and account shares 2^256 - 1, the floor value
2^257 - 2 is nonzero yet the function returns 0. -/
theorem get_account_balance_overflow_defaults_to_zero :
    get_account_balance ⟨2, 1⟩ ⟨0, U256 - 1⟩ = 0 ∧ (U256 - 1) * 2 / 1 ≠ 0 := by
  refine ⟨rfl, by decide⟩

/-- Sequencing with an Outcome unfolds to Outcome.bind. -/
theorem outcome_bind_def {α β : Type} (x : Outcome α) (f : α → Outcome β) :
    x >>= f = Outcome.bind x f := rfl

/-- An Outcome bind succeeds exactly when both stages succeed. -/
theorem outcome_bind_ok {α β : Type} {x : Outcome α} {f : α → Outcome β} {b : β} :
    Outcome.bind x f = .ok b ↔ ∃ a, x = .ok a ∧ f a = .ok b := by
  cases x <;> simp [Outcome.bind]

/-- Pure Outcome values are ok. -/
theorem outcome_pure_def {α : Type} (a : α) : (pure a : Outcome α) = .ok a := rfl

/-- A lifted panicking step succeeds exactly when the Option does. -/
theorem liftPanic_ok {α : Type} {o : Option α} {a : α} :
    liftPanic o = .ok a ↔ o = some a := by
  cases o <;> simp [liftPanic]

/-- Inversion of a successful accumulateSeries: either the series is reused
unchanged (same timestamp as the latest checkpoint, whose value is returned),
or a strictly later checkpoint is appended whose value grows from the latest
one. -/
theorem accumulateSeries_ok_cases {pool : Pool} {time : Nat} {st st' : Series}
    {a : Nat} (h : accumulateSeries pool time st = .ok (st', a)) :
    (st' = st ∧ ∃ t0, st.getLast? = some (t0, a)) ∨
    (st' = seriesSave st time a ∧
      (∀ last, st.getLast? = some last → last.1 < time) ∧
      ∃ d, a = (((st.getLast?).map Prod.snd).getD 0) + d) := by
  unfold accumulateSeries seriesLast at h
  cases hlast : st.getLast? with
  | none =>
    rw [hlast] at h
    simp only [outcome_pure_def, Outcome.ok.injEq, Prod.mk.injEq] at h
    obtain ⟨rfl, rfl⟩ := h
    right
    refine ⟨rfl, ?_, 0, by simp⟩
    intro last hl
    cases hl
  | some last =>
    rw [hlast] at h
    simp only [outcome_bind_def, outcome_bind_ok, liftPanic_ok] at h
    obtain ⟨duration, hdur, h⟩ := h
    obtain ⟨hle, rfl⟩ := checkedSub_some hdur
    by_cases hz : time - last.1 = 0
    · rw [if_pos hz] at h
      simp only [outcome_pure_def, Outcome.ok.injEq, Prod.mk.injEq] at h
      obtain ⟨rfl, rfl⟩ := h
      exact Or.inl ⟨rfl, last.1, rfl⟩
    · rw [if_neg hz] at h
      simp only [outcome_bind_def, outcome_bind_ok, liftPanic_ok,
        outcome_pure_def, Outcome.ok.injEq, Prod.mk.injEq] at h
      obtain ⟨scaled, hsc, nacc, hna, accv, haccv, hst, rfl⟩ := h
      obtain ⟨rfl, -⟩ := checkedAdd_some haccv
      right
      refine ⟨hst.symm, ?_, nacc, by simp⟩
      intro l hl
      cases hl
      omega

/-- The timestamps already in a well-formed series are all below the latest
one, and the values are all below the latest value. -/
theorem seriesWF_last_max : ∀ {st : Series}, SeriesWF st →
    ∀ {last : Nat × Nat}, st.getLast? = some last →
    ∀ p ∈ st, p.1 ≤ last.1 ∧ p.2 ≤ last.2 := by
  intro st
  induction st with
  | nil =>
    intro _ last hl
    cases hl
  | cons hd tl ih =>
    intro hwf last hl p hp
    cases tl with
    | nil =>
      simp only [List.getLast?_singleton, Option.some.injEq] at hl
      subst hl
      simp only [List.mem_singleton] at hp
      subst hp
      exact ⟨le_refl _, le_refl _⟩
    | cons b tl2 =>
      rw [List.getLast?_cons_cons] at hl
      have hsplit := List.chain'_cons.mp hwf
      rcases List.mem_cons.mp hp with rfl | hp2
      · have hb := ih hsplit.2 hl b (List.mem_cons_self _ _)
        exact ⟨le_trans (le_of_lt hsplit.1.1) hb.1, le_trans hsplit.1.2 hb.2⟩
      · exact ih hsplit.2 hl p hp2

/-- Saving at a timestamp beyond every existing one appends at the end. -/
theorem seriesSave_append : ∀ {st : Series} {k v : Nat},
    (∀ p ∈ st, p.1 < k) → seriesSave st k v = st ++ [(k, v)] := by
  intro st
  induction st with
  | nil =>
    intro k v _
    rfl
  | cons hd tl ih =>
    intro k v h
    obtain ⟨k', v'⟩ := hd
    have hk : k' < k := h (k', v') (List.mem_cons_self _ _)
    unfold seriesSave
    rw [if_neg (by omega), if_neg (by omega),
      ih fun p hp => h p (List.mem_cons_of_mem _ hp)]
    rfl

/-- Inversion of a successful accumulate: the series part comes from
accumulateSeries, the account keeps its pool_account, its last_accumulation
becomes the current time, and its accumulator is either unchanged (first
settlement) or credited from the checkpoint stored at its previous
last_accumulation timestamp. -/
theorem accumulate_ok {pool : Pool} {time : Nat} {st : Series}
    {account : AccumulatedPoolAccount} {st' : Series}
    {account' : AccumulatedPoolAccount}
    (h : accumulate pool time st account = .ok (st', account')) :
    ∃ accv, accumulateSeries pool time st = .ok (st', accv) ∧
      account'.pool_account = account.pool_account ∧
      account'.last_accumulation = some time ∧
      ((account.last_accumulation = none ∧
        account'.accumulator = account.accumulator) ∨
       (∃ t v d cr, account.last_accumulation = some t ∧
        seriesLoad st' t = some v ∧ checkedSub accv v = some d ∧
        mulUintDecimal account.pool_account.shares d = some cr ∧
        account'.accumulator = account.accumulator + cr)) := by
  unfold accumulate at h
  rw [outcome_bind_def, outcome_bind_ok] at h
  obtain ⟨⟨st1, accv⟩, hres, h⟩ := h
  cases hla : account.last_accumulation with
  | none =>
    rw [hla] at h
    simp only [outcome_pure_def, Outcome.ok.injEq, Prod.mk.injEq] at h
    obtain ⟨rfl, rfl⟩ := h
    exact ⟨accv, hres, rfl, rfl, Or.inl ⟨rfl, rfl⟩⟩
  | some t =>
    rw [hla] at h
    dsimp only at h
    cases hload : seriesLoad st1 t with
    | none =>
      rw [hload] at h
      simp [outcome_bind_def, Outcome.bind] at h
    | some v =>
      rw [hload] at h
      simp only [outcome_bind_def, outcome_bind_ok, liftPanic_ok,
        outcome_pure_def, Outcome.ok.injEq, Prod.mk.injEq, exists_eq_left,
        exists_eq_left'] at h
      obtain ⟨d, hd, cr, hcr, na, hna, rfl, rfl⟩ := h
      obtain ⟨rfl, -⟩ := checkedAdd_some hna
      exact ⟨accv, hres, rfl, rfl,
        Or.inr ⟨t, v, d, cr, rfl, hload, hd, hcr, rfl⟩⟩

/-- A successful accumulate preserves well-formedness of the checkpoint
series and at most appends one entry at the current time whose value is the
previous latest value plus a non-negative accrual. -/
theorem accumulate_wf_step {pool : Pool} {time : Nat} {st st' : Series}
    {account account' : AccumulatedPoolAccount}
    (hwf : SeriesWF st)
    (h : accumulate pool time st account = .ok (st', account')) :
    SeriesWF st' ∧
    (st' = st ∨
      ∃ d, st' = st ++ [(time, (((st.getLast?).map Prod.snd).getD 0) + d)]) := by
  obtain ⟨accv, hser, -⟩ := accumulate_ok h
  rcases accumulateSeries_ok_cases hser with ⟨rfl, -⟩ | ⟨hsave, hkeys, d, hval⟩
  · exact ⟨hwf, Or.inl rfl⟩
  · have hallkeys : ∀ p ∈ st, p.1 < time := by
      intro p hp
      cases hlast : st.getLast? with
      | none =>
        rw [List.getLast?_eq_none_iff] at hlast
        subst hlast
        cases hp
      | some last =>
        have h1 := seriesWF_last_max hwf hlast p hp
        have h2 := hkeys last hlast
        omega
    have hsave2 : st' = st ++ [(time, accv)] := by
      rw [hsave, seriesSave_append hallkeys]
    refine ⟨?_, Or.inr ⟨d, by rw [hsave2, hval]⟩⟩
    rw [hsave2]
    unfold SeriesWF
    rw [List.chain'_append]
    refine ⟨hwf, List.chain'_singleton _, ?_⟩
    intro x hx y hy
    simp only [List.head?_cons, Option.mem_def, Option.some.injEq] at hy
    subst hy
    have hx' : st.getLast? = some x := hx
    refine ⟨hkeys x hx', ?_⟩
    rw [hval]
    simp [hx']

/-- C6: every successful accumulate call preserves well-formedness of the
checkpoint series (strictly increasing timestamps, non-decreasing values) and
at most appends one entry at the current time whose value is the previous
latest value plus a non-negative accrual; consequently along any sequence of
successful accumulate calls from empty storage the stored values and
timestamps are non-decreasing. -/
theorem accumulate_series_monotone :
    (∀ (pool : Pool) (time : Nat) (st st' : Series)
      (account account' : AccumulatedPoolAccount),
      SeriesWF st → accumulate pool time st account = .ok (st', account') →
      SeriesWF st' ∧
      (st' = st ∨
        ∃ d, st' = st ++ [(time, (((st.getLast?).map Prod.snd).getD 0) + d)])) ∧
    (∀ st : Series, AccumReachable st → SeriesWF st) := by
  constructor
  · intro pool time st st' account account' hwf h
    exact accumulate_wf_step hwf h
  · intro st h
    induction h with
    | refl => exact List.chain'_nil
    | tail hr hstep ih =>
      obtain ⟨pool, time, account, account', hok⟩ := hstep
      exact (accumulate_wf_step ih hok).1

/-- Witness for C6 at the bootstrap call of the accumulation scenario. -/
theorem accumulate_series_monotone_witness :
    SeriesWF [] ∧
    (SeriesWF [(0, 0)] ∧
      (([(0, 0)] : Series) = [] ∨
        ∃ d, ([(0, 0)] : Series)
          = [] ++ [(0, ((([] : Series).getLast?).map Prod.snd).getD 0 + d)])) := by
  have hwf : SeriesWF ([] : Series) := List.chain'_nil
  exact ⟨hwf, accumulate_series_monotone.1 ⟨10, 10⟩ 0 [] [(0, 0)]
    ⟨⟨0, 0⟩, 0, none⟩ ⟨⟨0, 0⟩, 0, some 0⟩ hwf rfl⟩

/-- C7: a successful accumulate sets the account last_accumulation to the
current time in every case; when the account had a prior timestamp, the
checkpoint stored at exactly that timestamp is loaded and the accumulator is
credited with shares * (new accumulation - past value); and a missing
checkpoint at that timestamp surfaces the typed error instead of being
silently ignored. -/
theorem accumulate_settlement :
    (∀ (pool : Pool) (time : Nat) (st : Series)
      (account account' : AccumulatedPoolAccount) (st' : Series),
      accumulate pool time st account = .ok (st', account') →
      account'.last_accumulation = some time ∧
      account'.pool_account = account.pool_account ∧
      ((account.last_accumulation = none ∧
        account'.accumulator = account.accumulator) ∨
       (∃ t v d cr accv,
        account.last_accumulation = some t ∧
        accumulateSeries pool time st = .ok (st', accv) ∧
        seriesLoad st' t = some v ∧
        checkedSub accv v = some d ∧
        mulUintDecimal account.pool_account.shares d = some cr ∧
        account'.accumulator = account.accumulator + cr))) ∧
    (∀ (pool : Pool) (time : Nat) (st : Series)
      (account : AccumulatedPoolAccount) (t : Nat) (stacc : Series × Nat),
      account.last_accumulation = some t →
      accumulateSeries pool time st = .ok stacc →
      seriesLoad stacc.1 t = none →
      accumulate pool time st account = .err) := by
  constructor
  · intro pool time st account account' st' h
    obtain ⟨accv, hser, hpa, hla, hcase⟩ := accumulate_ok h
    refine ⟨hla, hpa, ?_⟩
    rcases hcase with ⟨h1, h2⟩ | ⟨t, v, d, cr, h1, h2, h3, h4, h5⟩
    · exact Or.inl ⟨h1, h2⟩
    · exact Or.inr ⟨t, v, d, cr, accv, h1, hser, h2, h3, h4, h5⟩
  · intro pool time st account t stacc hla hser hmiss
    unfold accumulate
    rw [outcome_bind_def, hser]
    show Outcome.bind (Outcome.ok stacc) _ = Outcome.err
    dsimp only [Outcome.bind]
    rw [hla]
    dsimp only
    rw [hmiss]
    rfl

/-- Witness for C7 at the second call of the accumulation scenario: the
account with 5 shares settled at time 0 is credited 5 * 10 = 50 at time 10. -/
theorem accumulate_settlement_witness :
    accumulate ⟨10, 10⟩ 10 [(0, 0)] ⟨⟨0, 5⟩, 0, some 0⟩
      = .ok ([(0, 0), (10, 10000000000000000000)], ⟨⟨0, 5⟩, 50, some 10⟩) ∧
    (⟨⟨0, 5⟩, 50, some 10⟩ : AccumulatedPoolAccount).last_accumulation
      = some 10 := by
  have h : accumulate ⟨10, 10⟩ 10 [(0, 0)] ⟨⟨0, 5⟩, 0, some 0⟩
      = .ok ([(0, 0), (10, 10000000000000000000)], ⟨⟨0, 5⟩, 50, some 10⟩) := rfl
  exact ⟨h, (accumulate_settlement.1 _ _ _ _ _ _ h).1⟩

/-- Updating the key targeted by combineStep stores the combined value,
reading an absent key through the default. -/
theorem lookupKey_combineStep_self {K V : Type} [DecidableEq K] (dflt : V)
    (op : V → V → V) :
    ∀ (l : List (K × V)) (k : K) (v : V),
      lookupKey (combineStep dflt op l k v) k
        = some (op ((lookupKey l k).getD dflt) v) := by
  intro l
  induction l with
  | nil =>
    intro k v
    simp [combineStep, lookupKey]
  | cons hd tl ih =>
    intro k v
    obtain ⟨k', v'⟩ := hd
    by_cases hk : k' = k
    · subst hk
      simp [combineStep, lookupKey]
    · simp [combineStep, lookupKey, hk, ih]

/-- The keys not targeted by combineStep keep their bindings. -/
theorem lookupKey_combineStep_other {K V : Type} [DecidableEq K] (dflt : V)
    (op : V → V → V) :
    ∀ (l : List (K × V)) (k : K) (v : V) (q : K), q ≠ k →
      lookupKey (combineStep dflt op l k v) q = lookupKey l q := by
  intro l
  induction l with
  | nil =>
    intro k v q hq
    simp [combineStep, lookupKey, Ne.symm hq]
  | cons hd tl ih =>
    intro k v q hq
    obtain ⟨k', v'⟩ := hd
    by_cases hk : k' = k
    · subst hk
      simp [combineStep, lookupKey, Ne.symm hq]
    · by_cases hq2 : k' = q
      · subst hq2
        simp [combineStep, lookupKey, hk]
      · simp [combineStep, lookupKey, hk, hq2, ih _ _ _ hq]

/-- A key absent from the key list of an association list has no binding. -/
theorem lookupKey_eq_none_of_not_mem {K V : Type} [DecidableEq K] :
    ∀ {l : List (K × V)} {k : K}, k ∉ l.map Prod.fst → lookupKey l k = none := by
  intro l
  induction l with
  | nil =>
    intro k _
    rfl
  | cons hd tl ih =>
    intro k h
    obtain ⟨k2, v2⟩ := hd
    simp only [List.map_cons, List.mem_cons, not_or] at h
    show (if k2 = k then some v2 else lookupKey tl k) = none
    rw [if_neg fun hc => h.1 hc.symm]
    exact ih h.2

/-- Keys absent from the rhs keep their lhs binding through the Add / Sub
fold. -/
theorem combineAll_lookup_none {K V : Type} [DecidableEq K] (dflt : V)
    (op : V → V → V) :
    ∀ (r l : List (K × V)) (k : K), lookupKey r k = none →
      lookupKey (combineAll dflt op l r) k = lookupKey l k := by
  intro r
  induction r with
  | nil =>
    intro l k _
    rfl
  | cons hd tl ih =>
    intro l k hk
    obtain ⟨k0, v0⟩ := hd
    by_cases h0 : k0 = k
    · subst h0
      simp [lookupKey] at hk
    · simp only [lookupKey, if_neg h0] at hk
      show lookupKey (combineAll dflt op (combineStep dflt op l k0 v0) tl) k = _
      rw [ih _ _ hk, lookupKey_combineStep_other dflt op l k0 v0 k fun h => h0 h.symm]

/-- Keys present in the rhs end combined with the lhs value or the default
through the Add / Sub fold (rhs keys unique, as in a map). -/
theorem combineAll_lookup_some {K V : Type} [DecidableEq K] (dflt : V)
    (op : V → V → V) :
    ∀ (r l : List (K × V)) (k : K) (v : V), (r.map Prod.fst).Nodup →
      lookupKey r k = some v →
      lookupKey (combineAll dflt op l r) k
        = some (op ((lookupKey l k).getD dflt) v) := by
  intro r
  induction r with
  | nil =>
    intro l k v _ hk
    cases hk
  | cons hd tl ih =>
    intro l k v hnd hk
    obtain ⟨k0, v0⟩ := hd
    simp only [List.map_cons, List.nodup_cons] at hnd
    by_cases h0 : k0 = k
    · subst h0
      simp only [lookupKey, if_true, eq_self_iff_true, Option.some.injEq] at hk
      subst hk
      have habs : lookupKey tl k0 = none := lookupKey_eq_none_of_not_mem hnd.1
      show lookupKey (combineAll dflt op (combineStep dflt op l k0 v0) tl) k0 = _
      rw [combineAll_lookup_none dflt op tl _ k0 habs,
        lookupKey_combineStep_self]
    · simp only [lookupKey, if_neg h0] at hk
      show lookupKey (combineAll dflt op (combineStep dflt op l k0 v0) tl) k = _
      rw [ih _ _ _ hnd.2 hk,
        lookupKey_combineStep_other dflt op l k0 v0 k fun h => h0 h.symm]

/-- Key membership of the Add / Sub fold is the union of both key sets. -/
theorem combineAll_contains {K V : Type} [DecidableEq K] (dflt : V)
    (op : V → V → V) :
    ∀ (r l : List (K × V)) (k : K),
      containsKey (combineAll dflt op l r) k
        = (containsKey l k || containsKey r k) := by
  intro r
  induction r with
  | nil =>
    intro l k
    simp [containsKey, combineAll, lookupKey]
  | cons hd tl ih =>
    intro l k
    obtain ⟨k0, v0⟩ := hd
    show containsKey (combineAll dflt op (combineStep dflt op l k0 v0) tl) k = _
    rw [ih]
    by_cases h0 : k0 = k
    · subst h0
      simp [containsKey, lookupKey_combineStep_self, lookupKey]
    · simp only [containsKey]
      rw [lookupKey_combineStep_other dflt op l k0 v0 k (Ne.symm h0)]
      simp [lookupKey, h0]

/-- C9: map addition and subtraction keep every key present in either
operand; a key present in the rhs is combined with the lhs value or with the
default when missing on the left, and a key absent from the rhs keeps its lhs
value; in particular the two specification examples hold, the fully
subtracted key staying present with value 0. -/
theorem map_add_sub_default_fill :
    (∀ (K V : Type) [DecidableEq K] (dflt : V) (op : V → V → V)
      (l r : List (K × V)), (r.map Prod.fst).Nodup →
      (∀ k, containsKey (combineAll dflt op l r) k
        = (containsKey l k || containsKey r k)) ∧
      (∀ k v, lookupKey r k = some v →
        lookupKey (combineAll dflt op l r) k
          = some (op ((lookupKey l k).getD dflt) v)) ∧
      (∀ k, lookupKey r k = none →
        lookupKey (combineAll dflt op l r) k = lookupKey l k)) ∧
    combineAll 0 Nat.add [((0 : Nat), (5 : Nat))] [(1, 3)]
      = [(0, 5), (1, 3)] ∧
    combineAll 0 Nat.sub [((0 : Nat), (5 : Nat)), (1, 3)] [(1, 3)]
      = [(0, 5), (1, 0)] := by
  refine ⟨?_, rfl, rfl⟩
  intro K V _ dflt op l r hnd
  exact ⟨fun k => combineAll_contains dflt op r l k,
    fun k v hv => combineAll_lookup_some dflt op r l k v hnd hv,
    fun k hk => combineAll_lookup_none dflt op r l k hk⟩

/-- Witness for C9 at the addition example with keys 0 and 1. -/
theorem map_add_sub_default_fill_witness :
    (([((1 : Nat), (3 : Nat))].map Prod.fst).Nodup) ∧
    containsKey (combineAll 0 Nat.add [((0 : Nat), (5 : Nat))] [(1, 3)]) 1
      = (containsKey [((0 : Nat), (5 : Nat))] 1
        || containsKey [((1 : Nat), (3 : Nat))] 1) := by
  have hnd : (([((1 : Nat), (3 : Nat))].map Prod.fst)).Nodup := by simp
  exact ⟨hnd,
    (map_add_sub_default_fill.1 Nat Nat 0 Nat.add
      [((0 : Nat), (5 : Nat))] [(1, 3)] hnd).1 1⟩

/-- C10 counterexample: the specification example itself evaluates to a
KeyNotFound error, not to the intersection: multiplying the map with keys 0
and 1 by the map containing only key 1 fails because key 0 is missing from
the right operand, instead of dropping key 0 and returning the value 12 at
key 1. -/
theorem mul_all_missing_key_errors :
    mul_all Nat.mul [((0 : Nat), (2 : Nat)), (1, 3)] [((1 : Nat), (4 : Nat))]
      = none := rfl

/-- C10 amended: mul_all keeps exactly the keys of the left operand, each
multiplied by the rhs value at the same key, errors when any left key is
missing from the rhs, and ignores keys present only in the rhs. -/
theorem mul_all_characterization {K V U W : Type} [DecidableEq K]
    (op : V → U → W) (l : List (K × V)) (r : List (K × U)) :
    mul_all op l r =
      if ∀ k ∈ l.map Prod.fst, (lookupKey r k).isSome then
        some (l.filterMap fun kv =>
          (lookupKey r kv.1).map fun u => (kv.1, op kv.2 u))
      else none := by
  induction l with
  | nil => simp [mul_all]
  | cons hd tl ih =>
    obtain ⟨k, v⟩ := hd
    unfold mul_all
    cases hk : lookupKey r k with
    | none =>
      rw [if_neg (by simp [hk])]
      simp [hk]
    | some u =>
      simp only [hk, Option.bind_eq_bind', Option.some_bind]
      rw [ih]
      by_cases hc : ∀ x ∈ tl.map Prod.fst, (lookupKey r x).isSome
      · have hpos : ∀ x ∈ ((k, v) :: tl).map Prod.fst, (lookupKey r x).isSome := by
          simp only [List.map_cons, List.forall_mem_cons]
          exact ⟨by simp [hk], hc⟩
        rw [if_pos hc, if_pos hpos]
        simp [List.filterMap_cons, hk]
      · have hneg : ¬ ∀ x ∈ ((k, v) :: tl).map Prod.fst, (lookupKey r x).isSome := by
          intro hcon
          simp only [List.map_cons, List.forall_mem_cons] at hcon
          exact hc hcon.2
        rw [if_neg hc, if_neg hneg]
        rfl

/-- C8 amended: get_account_balance equals floor(account.shares *
pool.balance / pool.shares) when the pool shares are nonzero and the quotient
fits in Uint256, and silently defaults to zero both when pool.shares is zero
and on overflow; no error is surfaced. -/
theorem get_account_balance_characterization (pool : Pool)
    (account : PoolAccount) :
    get_account_balance pool account =
      if pool.shares = 0 then 0
      else if account.shares * pool.balance / pool.shares < U256 then
        account.shares * pool.balance / pool.shares
      else 0 := by
  unfold get_account_balance checkedMulRatio
  split
  · rfl
  · split <;> rfl

end NeptuneCommon
